import Mathlib

/-!
Shallow embedding of the ka9q-radio sources `status.c` and `linear.c`
(linear demodulator and status/TLV encoding), with theorems checking the
natural-language specification against the code.

Machine integers (`uint64_t`, `uint8_t`) are modelled as `Nat` with explicit
`% 2 ^ 64` where C arithmetic can wrap; byte buffers written through
`uint8_t **buf` are modelled as the list of bytes written so far, so that
"advance the buffer pointer by k" becomes "append k bytes".  C `float`/
`double` data-flow is modelled over `ℝ`; the only NaN the claims care about
is tracked explicitly (`Option ℝ` for the SNR value, an `isNan` field for
the argument of `encode_float`/`encode_double`), mirroring the fact that in
C every ordered comparison against NaN is false and `isnan` is an explicit
test.
-/

namespace KA9Q

/-! ### status.c -/

/-- From `decode_int` (status.c): accumulate big-endian bytes,
`result = (result << 8) | *cp++` on a `uint64_t` accumulator. -/
def decode_int (cp : List ℕ) : ℕ :=
  cp.foldl (fun result b => ((result <<< 8) % 2 ^ 64) ||| b) 0

/-- The leading-zero-suppression loop of `encode_int64` (status.c):
`while(len > 0 && (x & 0xff00000000000000LL) == 0){ x <<= 8; len--; }`,
returning the final `(x, len)`. -/
def stripZeros : ℕ → ℕ → ℕ × ℕ
  | x, 0 => (x, 0)
  | x, len + 1 =>
    if x &&& 0xff00000000000000 = 0 then
      stripZeros ((x <<< 8) % 2 ^ 64) len
    else
      (x, len + 1)

/-- The payload-emission loop of `encode_int64` (status.c):
`for(i=0;i<len;i++){ *cp++ = x >> 56; x <<= 8; }`. -/
def emitBytes : ℕ → ℕ → List ℕ
  | _, 0 => []
  | x, len + 1 => (x >>> 56) :: emitBytes ((x <<< 8) % 2 ^ 64) len

/-- `encode_int64` (status.c): write the type byte, then either a zero
length byte (zero is compressed to zero length) or the length byte followed
by the nonzero payload bytes, most significant first.  Returns the bytes
written so far (buffer + pointer advance) and the `int` return value. -/
def encode_int64 (buf : List ℕ) (t : ℕ) (x : ℕ) : List ℕ × ℕ :=
  if x = 0 then
    (buf ++ [t, 0], 2)
  else
    let p := stripZeros x 8
    (buf ++ t :: p.2 :: emitBytes p.1 p.2, 2 + p.2)

/-- Length byte produced by `encode_int64` for the value `x`. -/
def int64_len (x : ℕ) : ℕ :=
  if x = 0 then 0 else (stripZeros x 8).2

/-- Payload bytes produced by `encode_int64` for the value `x`. -/
def int64_payload (x : ℕ) : List ℕ :=
  if x = 0 then [] else emitBytes (stripZeros x 8).1 (stripZeros x 8).2

/-- A C `float` argument as seen by `encode_float`: whether it is a NaN,
and the 32-bit pattern read back through the `union result` pun. -/
structure CFloat where
  isNan : Bool
  bits : ℕ

/-- A C `double` argument as seen by `encode_double`. -/
structure CDouble where
  isNan : Bool
  bits : ℕ

/-- `encode_int32` (status.c) widens to `uint64_t` and defers to
`encode_int64`. -/
def encode_int32 (buf : List ℕ) (t : ℕ) (x : ℕ) : List ℕ × ℕ :=
  encode_int64 buf t x

/-- `encode_float` (status.c): `if(isnan(x)) return 0;` (never encode a
NaN, nothing written), else encode the 32-bit pattern. -/
def encode_float (buf : List ℕ) (t : ℕ) (x : CFloat) : List ℕ × ℕ :=
  if x.isNan then (buf, 0) else encode_int32 buf t x.bits

/-- `encode_double` (status.c): same NaN guard, 64-bit pattern. -/
def encode_double (buf : List ℕ) (t : ℕ) (x : CDouble) : List ℕ × ℕ :=
  if x.isNan then (buf, 0) else encode_int64 buf t x.bits

/-! ### Arithmetic facts about the byte loops -/

theorem land_hi_eq (x : ℕ) (hx : x < 2 ^ 64) :
    x &&& 0xff00000000000000 = (x >>> 56) <<< 56 := by
  have hmask : (0xff00000000000000 : ℕ) = (2 ^ 8 - 1) <<< 56 := by
    norm_num [Nat.shiftLeft_eq]
  rw [hmask]
  apply Nat.eq_of_testBit_eq
  intro i
  rw [Nat.testBit_and, Nat.testBit_shiftLeft, Nat.testBit_shiftLeft,
    Nat.testBit_shiftRight, Nat.testBit_two_pow_sub_one]
  by_cases h56 : 56 ≤ i
  · by_cases h64 : i < 64
    · have : 56 + (i - 56) = i := by omega
      simp [h56, this, show i - 56 < 8 by omega]
    · have hbit : x.testBit (56 + (i - 56)) = false := by
        apply Nat.testBit_lt_two_pow
        calc x < 2 ^ 64 := hx
          _ ≤ 2 ^ (56 + (i - 56)) := Nat.pow_le_pow_right (by norm_num) (by omega)
      have hbit2 : x.testBit i = false := by
        have : 56 + (i - 56) = i := by omega
        rwa [this] at hbit
      simp [hbit, hbit2]
  · simp [h56]

theorem mask_zero_iff (x : ℕ) (hx : x < 2 ^ 64) :
    x &&& 0xff00000000000000 = 0 ↔ x < 2 ^ 56 := by
  rw [land_hi_eq x hx, Nat.shiftLeft_eq, Nat.shiftRight_eq_div_pow]
  constructor
  · intro h
    have h0 : x / 2 ^ 56 = 0 := by
      rcases Nat.mul_eq_zero.mp h with h' | h'
      · exact h'
      · exact absurd h' (by positivity)
    omega
  · intro h
    rw [Nat.div_eq_of_lt h, Nat.zero_mul]

theorem decode_step (r b : ℕ) (hb : b < 2 ^ 8) (hr : r < 2 ^ 56) :
    ((r <<< 8) % 2 ^ 64) ||| b = r * 2 ^ 8 + b := by
  have h2 : r * 2 ^ 8 < 2 ^ 64 := by
    calc r * 2 ^ 8 < 2 ^ 56 * 2 ^ 8 :=
          (Nat.mul_lt_mul_right (by norm_num)).mpr hr
      _ = 2 ^ 64 := by norm_num
  rw [Nat.shiftLeft_eq, Nat.mod_eq_of_lt h2, Nat.mul_comm,
    ← Nat.mul_add_lt_is_or hb r, Nat.mul_comm]

theorem emit_foldl (l : ℕ) : ∀ a x r : ℕ, 8 * l + a = 64 → x < 2 ^ 64 → r < 2 ^ a →
    List.foldl (fun result b => ((result <<< 8) % 2 ^ 64) ||| b) r (emitBytes x l)
      = r * 2 ^ (8 * l) + x / 2 ^ a := by
  induction l with
  | zero =>
    intro a x r ha hx _
    have ha' : a = 64 := by omega
    subst ha'
    simp only [emitBytes, List.foldl, Nat.mul_zero, pow_zero, Nat.mul_one]
    rw [Nat.div_eq_of_lt hx]
    omega
  | succ n ih =>
    intro a x r ha hx hr
    have ha' : 8 * n + (a + 8) = 64 := by omega
    have ha56 : a + 8 * n = 56 := by omega
    have hq : x / 2 ^ 56 < 2 ^ 8 := by
      rw [Nat.div_lt_iff_lt_mul (by positivity)]
      calc x < 2 ^ 64 := hx
        _ = 2 ^ 8 * 2 ^ 56 := by norm_num
    have hra : r < 2 ^ 56 := by
      calc r < 2 ^ a := hr
        _ ≤ 2 ^ 56 := Nat.pow_le_pow_right (by norm_num) (by omega)
    have hbyte : x >>> 56 = x / 2 ^ 56 := Nat.shiftRight_eq_div_pow x 56
    have hstep : ((r <<< 8) % 2 ^ 64) ||| (x >>> 56) = r * 2 ^ 8 + x / 2 ^ 56 := by
      rw [hbyte]; exact decode_step r _ hq hra
    -- the shifted-out remainder
    have hsplit : x = x % 2 ^ 56 + 2 ^ 56 * (x / 2 ^ 56) := by
      rw [Nat.mul_comm]; omega
    have hs : x % 2 ^ 56 < 2 ^ 56 := Nat.mod_lt _ (by positivity)
    have hx' : (x <<< 8) % 2 ^ 64 = (x % 2 ^ 56) * 2 ^ 8 := by
      rw [Nat.shiftLeft_eq]
      conv_lhs => rw [hsplit]
      rw [Nat.add_mul, Nat.mul_assoc]
      have h264 : (2 : ℕ) ^ 56 * ((x / 2 ^ 56) * 2 ^ 8) = (x / 2 ^ 56) * 2 ^ 8 * 2 ^ 56 := by ring
      have : ((x % 2 ^ 56) * 2 ^ 8 + 2 ^ 56 * (x / 2 ^ 56 * 2 ^ 8)) % 2 ^ 64
          = (x % 2 ^ 56) * 2 ^ 8 % 2 ^ 64 := by
        have hrw : (2 : ℕ) ^ 56 * (x / 2 ^ 56 * 2 ^ 8) = x / 2 ^ 56 * 2 ^ 64 := by ring
        rw [hrw, Nat.add_mul_mod_self_right]
      rw [this, Nat.mod_eq_of_lt]
      calc (x % 2 ^ 56) * 2 ^ 8 < 2 ^ 56 * 2 ^ 8 :=
            (Nat.mul_lt_mul_right (by norm_num)).mpr hs
        _ = 2 ^ 64 := by norm_num
    have hx'lt : (x % 2 ^ 56) * 2 ^ 8 < 2 ^ 64 := by
      calc (x % 2 ^ 56) * 2 ^ 8 < 2 ^ 56 * 2 ^ 8 :=
            (Nat.mul_lt_mul_right (by norm_num)).mpr hs
        _ = 2 ^ 64 := by norm_num
    have hr' : r * 2 ^ 8 + x / 2 ^ 56 < 2 ^ (a + 8) := by
      have h1 : r * 2 ^ 8 + x / 2 ^ 56 < (r + 1) * 2 ^ 8 := by
        have : x / 2 ^ 56 < 2 ^ 8 := hq
        calc r * 2 ^ 8 + x / 2 ^ 56 < r * 2 ^ 8 + 2 ^ 8 := by omega
          _ = (r + 1) * 2 ^ 8 := by ring
      calc r * 2 ^ 8 + x / 2 ^ 56 < (r + 1) * 2 ^ 8 := h1
        _ ≤ 2 ^ a * 2 ^ 8 := Nat.mul_le_mul_right _ (by omega)
        _ = 2 ^ (a + 8) := by rw [pow_add]
    show List.foldl _ (((r <<< 8) % 2 ^ 64) ||| (x >>> 56)) (emitBytes ((x <<< 8) % 2 ^ 64) n)
      = r * 2 ^ (8 * (n + 1)) + x / 2 ^ a
    rw [hstep, hx']
    rw [ih (a + 8) ((x % 2 ^ 56) * 2 ^ 8) (r * 2 ^ 8 + x / 2 ^ 56) ha' hx'lt hr']
    have e1 : (x % 2 ^ 56) * 2 ^ 8 / 2 ^ (a + 8) = x % 2 ^ 56 / 2 ^ a := by
      rw [pow_add]
      exact Nat.mul_div_mul_right _ _ (by norm_num)
    have e2 : x / 2 ^ a = x % 2 ^ 56 / 2 ^ a + x / 2 ^ 56 * 2 ^ (8 * n) := by
      have h56 : (2 : ℕ) ^ 56 * (x / 2 ^ 56) = 2 ^ a * (2 ^ (8 * n) * (x / 2 ^ 56)) := by
        rw [← Nat.mul_assoc, ← pow_add]
        congr 2
        omega
      conv_lhs => rw [hsplit, h56]
      rw [Nat.add_mul_div_left _ _ (by positivity : (0:ℕ) < 2 ^ a),
        Nat.mul_comm (2 ^ (8 * n)) (x / 2 ^ 56)]
    rw [e1, e2]
    ring

theorem stripZeros_spec : ∀ l x : ℕ, 0 < x → x < 2 ^ 64 →
    ∃ j, stripZeros x l = (x * 2 ^ (8 * j), l - j) ∧ j ≤ l ∧
      x * 2 ^ (8 * j) < 2 ^ 64 ∧ (l - j = 0 ∨ 2 ^ 56 ≤ x * 2 ^ (8 * j)) := by
  intro l
  induction l with
  | zero =>
    intro x hx0 hx
    exact ⟨0, by simp [stripZeros], by omega, by simpa using hx, Or.inl rfl⟩
  | succ n ih =>
    intro x hx0 hx
    by_cases hc : x &&& 0xff00000000000000 = 0
    · have hx56 : x < 2 ^ 56 := (mask_zero_iff x hx).mp hc
      have hx8 : x * 2 ^ 8 < 2 ^ 64 := by
        calc x * 2 ^ 8 < 2 ^ 56 * 2 ^ 8 :=
              (Nat.mul_lt_mul_right (by norm_num)).mpr hx56
          _ = 2 ^ 64 := by norm_num
      have hshift : (x <<< 8) % 2 ^ 64 = x * 2 ^ 8 := by
        rw [Nat.shiftLeft_eq, Nat.mod_eq_of_lt hx8]
      obtain ⟨j, hstrip, hj, hlt, hcond⟩ := ih (x * 2 ^ 8) (by positivity) hx8
      have hxj : x * 2 ^ 8 * 2 ^ (8 * j) = x * 2 ^ (8 * (j + 1)) := by
        rw [Nat.mul_assoc, ← pow_add]
        congr 2
        omega
      refine ⟨j + 1, ?_, by omega, ?_, ?_⟩
      · show stripZeros x (n + 1) = _
        rw [stripZeros, if_pos hc, hshift, hstrip, hxj]
        have h2 : n + 1 - (j + 1) = n - j := by omega
        rw [h2]
      · have : x * 2 ^ (8 * (j + 1)) = x * 2 ^ 8 * 2 ^ (8 * j) := by
          rw [Nat.mul_assoc, ← pow_add]; congr 2; omega
        rwa [this]
      · have hval : x * 2 ^ (8 * (j + 1)) = x * 2 ^ 8 * 2 ^ (8 * j) := by
          rw [Nat.mul_assoc, ← pow_add]; congr 2; omega
        rcases hcond with h | h
        · left; omega
        · right; rwa [hval]
    · have hx56 : 2 ^ 56 ≤ x := by
        have := (mask_zero_iff x hx).not.mp hc
        omega
      refine ⟨0, ?_, by omega, by simpa using hx, Or.inr (by simpa using hx56)⟩
      show stripZeros x (n + 1) = _
      rw [stripZeros, if_neg hc]
      simp

theorem emitBytes_length : ∀ l x : ℕ, (emitBytes x l).length = l := by
  intro l
  induction l with
  | zero => intro x; simp [emitBytes]
  | succ n ih => intro x; simp [emitBytes, ih]

/-! ### Claim theorems for status.c -/

/-- Claim C9: `encode_int64` writes a type byte, a length byte `len` with
`0 ≤ len ≤ 8` (`len = 0` exactly when `x = 0`, otherwise `len` is the
minimal number of bytes holding `x`, leading zero bytes suppressed), then
`len` payload bytes most significant first; it advances the buffer pointer
by `2 + len` and returns `2 + len`; and `decode_int` applied to the payload
bytes returns exactly `x`, including the zero-compressed case. -/
theorem encode_int64_decode_int_roundtrip (buf : List ℕ) (t x : ℕ) (hx : x < 2 ^ 64) :
    (encode_int64 buf t x).1 = buf ++ t :: int64_len x :: int64_payload x ∧
    (encode_int64 buf t x).2 = 2 + int64_len x ∧
    (encode_int64 buf t x).1.length = buf.length + (encode_int64 buf t x).2 ∧
    int64_len x ≤ 8 ∧
    (int64_len x = 0 ↔ x = 0) ∧
    (x ≠ 0 → 2 ^ (8 * (int64_len x - 1)) ≤ x ∧ x < 2 ^ (8 * int64_len x)) ∧
    (int64_payload x).length = int64_len x ∧
    decode_int (int64_payload x) = x := by
  by_cases h0 : x = 0
  · subst h0
    refine ⟨?_, ?_, ?_, ?_, ?_, ?_, ?_, ?_⟩ <;>
      simp [encode_int64, int64_len, int64_payload, decode_int]
  · obtain ⟨j, hstrip, hj, hlt, hcond⟩ := stripZeros_spec 8 x (by omega) hx
    have hlen8 : 8 - j ≠ 0 := by
      intro hz
      have hj8 : j = 8 := by omega
      subst hj8
      have : 2 ^ 64 ≤ x * 2 ^ (8 * 8) := by
        calc (2 : ℕ) ^ 64 = 1 * 2 ^ (8 * 8) := by norm_num
          _ ≤ x * 2 ^ (8 * 8) := Nat.mul_le_mul_right _ (by omega)
      omega
    have hge : 2 ^ 56 ≤ x * 2 ^ (8 * j) := by
      rcases hcond with h | h
      · exact absurd h hlen8
      · exact h
    have hlen_val : int64_len x = 8 - j := by
      rw [int64_len, if_neg h0, hstrip]
    have hpay : int64_payload x = emitBytes (x * 2 ^ (8 * j)) (8 - j) := by
      rw [int64_payload, if_neg h0, hstrip]
    have hplen : (int64_payload x).length = int64_len x := by
      rw [hpay, emitBytes_length, hlen_val]
    have hdec : decode_int (int64_payload x) = x := by
      rw [hpay, decode_int]
      have h64 : 8 * (8 - j) + 8 * j = 64 := by omega
      rw [emit_foldl (8 - j) (8 * j) (x * 2 ^ (8 * j)) 0 h64 hlt (by positivity)]
      rw [Nat.zero_mul, Nat.zero_add, Nat.mul_div_cancel _ (by positivity : (0:ℕ) < 2 ^ (8 * j))]
    have hmin : 2 ^ (8 * (int64_len x - 1)) ≤ x ∧ x < 2 ^ (8 * int64_len x) := by
      rw [hlen_val]
      constructor
      · have he : 8 * (8 - j - 1) + 8 * j = 56 := by omega
        have : 2 ^ (8 * (8 - j - 1)) * 2 ^ (8 * j) ≤ x * 2 ^ (8 * j) := by
          rw [← pow_add, he]; exact hge
        exact Nat.le_of_mul_le_mul_right this (by positivity)
      · have he : 8 * (8 - j) + 8 * j = 64 := by omega
        have : x * 2 ^ (8 * j) < 2 ^ (8 * (8 - j)) * 2 ^ (8 * j) := by
          rw [← pow_add, he]; exact hlt
        exact Nat.lt_of_mul_lt_mul_right this
    have henc1 : (encode_int64 buf t x).1 = buf ++ t :: int64_len x :: int64_payload x := by
      rw [encode_int64, if_neg h0, hlen_val, hpay, hstrip]
    have henc2 : (encode_int64 buf t x).2 = 2 + int64_len x := by
      rw [encode_int64, if_neg h0, hlen_val, hstrip]
    refine ⟨henc1, henc2, ?_, by omega, ?_, fun _ => hmin, hplen, hdec⟩
    · rw [henc1, henc2, List.length_append]
      simp [hplen, hlen_val]
      omega
    · constructor
      · intro hcontra
        rw [hlen_val] at hcontra
        exact absurd hcontra hlen8
      · intro hcontra
        exact absurd hcontra h0

theorem encode_int64_decode_int_roundtrip_witness :
    (encode_int64 [] 9 258).1 = [] ++ 9 :: int64_len 258 :: int64_payload 258 ∧
    (encode_int64 [] 9 258).2 = 2 + int64_len 258 ∧
    (encode_int64 [] 9 258).1.length = ([] : List ℕ).length + (encode_int64 [] 9 258).2 ∧
    int64_len 258 ≤ 8 ∧
    (int64_len 258 = 0 ↔ 258 = 0) ∧
    (258 ≠ 0 → 2 ^ (8 * (int64_len 258 - 1)) ≤ 258 ∧ 258 < 2 ^ (8 * int64_len 258)) ∧
    (int64_payload 258).length = int64_len 258 ∧
    decode_int (int64_payload 258) = 258 :=
  encode_int64_decode_int_roundtrip [] 9 258 (by norm_num)

/-- Claim C10: for a NaN argument, `encode_float` and `encode_double`
return 0, write nothing, and leave the buffer pointer unchanged, so a
NaN-valued telemetry field is silently omitted from a status packet. -/
theorem encode_nan_omitted (buf buf2 : List ℕ) (t t2 : ℕ) (x : CFloat) (y : CDouble)
    (hx : x.isNan = true) (hy : y.isNan = true) :
    (encode_float buf t x).1 = buf ∧ (encode_float buf t x).2 = 0 ∧
    (encode_double buf2 t2 y).1 = buf2 ∧ (encode_double buf2 t2 y).2 = 0 := by
  rw [encode_float, if_pos hx, encode_double, if_pos hy]
  exact ⟨rfl, rfl, rfl, rfl⟩

theorem encode_nan_omitted_witness :
    (encode_float [3] 7 ⟨true, 0⟩).1 = [3] ∧ (encode_float [3] 7 ⟨true, 0⟩).2 = 0 ∧
    (encode_double [] 8 ⟨true, 5⟩).1 = [] ∧ (encode_double [] 8 ⟨true, 5⟩).2 = 0 :=
  encode_nan_omitted [3] [] 7 8 ⟨true, 0⟩ ⟨true, 5⟩ rfl rfl

/-! ### linear.c: the linear demodulator `demod_linear`

C `float`/`double` quantities are modelled over `ℝ` (the claims about the
gain ramp are stated "exactly in real arithmetic"); the NaN that
`chan->sig.snr` can take when the accumulated noise power is zero is
modelled by `Option ℝ` (`none` = NaN), which reproduces the C semantics
that every ordered comparison against NaN is false. -/

noncomputable section

/-- AGC configuration slice of `struct channel` read by `demod_linear`:
the enable flag `chan->linear.agc`, `chan->output.headroom`,
`chan->linear.threshold`, `chan->linear.hangtime` (blocks) and
`chan->linear.recovery_rate` (voltage ratio per block). -/
structure AgcConfig where
  agc : Bool
  headroom : ℝ
  threshold : ℝ
  hangtime : ℕ
  recovery_rate : ℝ

/-- The AGC decision of `demod_linear` (linear.c, the block guarded by
`if(chan->linear.agc)`), translated branch by branch.  Arguments mirror
`chan->filter.min_IF`, `chan->filter.max_IF`, `chan->sig.n0`,
`chan->sig.bb_power`, `chan->output.gain` and `chan->hangcount`; the result
is the pair `(gain_change, hangcount after the block)`. -/
def agc_step (cfg : AgcConfig) (N : ℕ) (min_IF max_IF n0 bb_power gain : ℝ)
    (hangcount : ℕ) : ℝ × ℕ :=
  if cfg.agc then
    let bw := |min_IF - max_IF|
    let bn := Real.sqrt (bw * n0)
    let ampl := Real.sqrt bb_power
    if ampl * gain > cfg.headroom then
      let newgain := cfg.headroom / ampl
      ((if newgain > 0 then (newgain / gain) ^ ((1 : ℝ) / (N : ℝ)) else 1), cfg.hangtime)
    else if bn * gain > cfg.threshold * cfg.headroom then
      let newgain := cfg.threshold * cfg.headroom / bn
      ((if newgain > 0 then (newgain / gain) ^ ((1 : ℝ) / (N : ℝ)) else 1), hangcount)
    else if hangcount > 0 then
      (1, hangcount - 1)
    else
      (cfg.recovery_rate ^ ((1 : ℝ) / (N : ℝ)), hangcount)
  else
    (1, hangcount)

/-- Which of the four AGC branches fires, in the fixed source order of the
if/else-if chain. -/
inductive AgcBranch where
  | strong
  | noiseHigh
  | hanging
  | recovering
deriving DecidableEq

/-- Branch selector matching the guards of `agc_step` in source order. -/
def agc_branch (cfg : AgcConfig) (min_IF max_IF n0 bb_power gain : ℝ)
    (hangcount : ℕ) : AgcBranch :=
  let bw := |min_IF - max_IF|
  let bn := Real.sqrt (bw * n0)
  let ampl := Real.sqrt bb_power
  if ampl * gain > cfg.headroom then AgcBranch.strong
  else if bn * gain > cfg.threshold * cfg.headroom then AgcBranch.noiseHigh
  else if hangcount > 0 then AgcBranch.hanging
  else AgcBranch.recovering

/-- Output-formatting loop, mono / I-channel-only case (linear.c:
`samples[n] = crealf(buffer[n]) * gain; output_power += samples[n]*samples[n];
gain *= gain_change;`).  Returns (output samples, accumulated output power,
final gain). -/
def mono_i_loop (gain_change : ℝ) : List ℂ → ℝ → ℝ → List ℝ × ℝ × ℝ
  | [], gain, output_power => ([], output_power, gain)
  | z :: rest, gain, output_power =>
    let s := z.re * gain
    let r := mono_i_loop gain_change rest (gain * gain_change) (output_power + s * s)
    (s :: r.1, r.2.1, r.2.2)

/-- Output-formatting loop, mono / AM-envelope case (linear.c:
`samples[n] = cabsf(buffer[n]) * gain; ...`). -/
def mono_env_loop (gain_change : ℝ) : List ℂ → ℝ → ℝ → List ℝ × ℝ × ℝ
  | [], gain, output_power => ([], output_power, gain)
  | z :: rest, gain, output_power =>
    let s := Complex.abs z * gain
    let r := mono_env_loop gain_change rest (gain * gain_change) (output_power + s * s)
    (s :: r.1, r.2.1, r.2.2)

/-- Output-formatting loop, stereo I/Q case (linear.c:
`buffer[n] *= gain; output_power += cnrmf(buffer[n]); gain *= gain_change;`). -/
def stereo_iq_loop (gain_change : ℝ) : List ℂ → ℝ → ℝ → List ℂ × ℝ × ℝ
  | [], gain, output_power => ([], output_power, gain)
  | z :: rest, gain, output_power =>
    let z' := z * (gain : ℂ)
    let r := stereo_iq_loop gain_change rest (gain * gain_change)
      (output_power + Complex.normSq z')
    (z' :: r.1, r.2.1, r.2.2)

/-- Output-formatting loop, stereo I/envelope case (linear.c:
`__imag__ buffer[n] = cabsf(buffer[n]) * 2; buffer[n] *= gain; ...`). -/
def stereo_env_loop (gain_change : ℝ) : List ℂ → ℝ → ℝ → List ℂ × ℝ × ℝ
  | [], gain, output_power => ([], output_power, gain)
  | z :: rest, gain, output_power =>
    let z' := (⟨z.re, Complex.abs z * 2⟩ : ℂ) * (gain : ℂ)
    let r := stereo_env_loop gain_change rest (gain * gain_change)
      (output_power + Complex.normSq z')
    (z' :: r.1, r.2.1, r.2.2)

/-- End-of-block gain of the output-formatting pass, dispatching on
`chan->output.channels` and `chan->linear.env` exactly as linear.c does. -/
def block_final_gain (channels : ℕ) (env : Bool) (gain_change : ℝ)
    (buffer : List ℂ) (gain : ℝ) : ℝ :=
  if channels = 1 then
    if env then (mono_env_loop gain_change buffer gain 0).2.2
    else (mono_i_loop gain_change buffer gain 0).2.2
  else
    if env then (stereo_env_loop gain_change buffer gain 0).2.2
    else (stereo_iq_loop gain_change buffer gain 0).2.2

/-- Per-block inputs consumed by the AGC and the formatting pass: the
working buffer after PLL and shift, and the front-end power estimates. -/
structure BlockIn where
  buffer : List ℂ
  min_IF : ℝ
  max_IF : ℝ
  n0 : ℝ
  bb_power : ℝ

/-- Gain/hangcount evolution of a channel across consecutive blocks:
per block, one `agc_step` decision followed by the per-sample ramp of the
formatting pass. -/
def agc_gain_evolution (cfg : AgcConfig) (channels : ℕ) (env : Bool) :
    List BlockIn → ℝ × ℕ → ℝ × ℕ
  | [], s => s
  | b :: rest, s =>
    let r := agc_step cfg b.buffer.length b.min_IF b.max_IF b.n0 b.bb_power s.1 s.2
    agc_gain_evolution cfg channels env rest
      (block_final_gain channels env r.1 b.buffer s.1, r.2)

/-- In-phase ("signal") power accumulated by the PLL pass of
`demod_linear`: `signal += crealf(s) * crealf(s)` over the de-rotated
samples. -/
def signal_power (l : List ℂ) : ℝ := (l.map fun z => z.re * z.re).sum

/-- Quadrature ("noise") power accumulated by the PLL pass:
`noise += cimagf(s) * cimagf(s)`. -/
def noise_power (l : List ℂ) : ℝ := (l.map fun z => z.im * z.im).sum

/-- SNR computation of `demod_linear` (`chan->sig.snr`): power ratio
`signal/noise - 1` clamped below at zero when `noise != 0`, and NaN
(modelled as `none`) when the noise accumulator is exactly zero. -/
def snr_of (signal noise : ℝ) : Option ℝ :=
  if noise ≠ 0 then
    let snr0 := signal / noise - 1
    some (if snr0 < 0 then 0 else snr0)
  else
    none

/-- PLL lock state slice of `struct channel`: `chan->pll.lock_count`,
`chan->linear.pll_lock` and the telemetry copy `chan->linear.lock_timer`. -/
structure LockState where
  lock_count : ℤ
  pll_lock : Bool
  lock_timer : ℤ

/-- The `int` constant `lock_limit = lock_time * chan->output.samprate`
(float-to-int conversion of a nonnegative product, i.e. the floor). -/
def lock_limit (lock_time : ℝ) (samprate : ℕ) : ℤ := ⌊lock_time * (samprate : ℝ)⌋

/-- Lock detector with hysteresis (linear.c): driven once per block by the
SNR (`none` = NaN: both ordered comparisons fail and nothing changes),
comparing against `chan->fm.squelch_close` and `chan->fm.squelch_open`,
stepping `lock_count` by the block size `N` with clamping at
`±limit`, flipping `pll_lock` only at the clamps, and finally copying the
counter into `lock_timer`. -/
def lock_update (limit N : ℤ) (squelch_close squelch_open : ℝ)
    (snr : Option ℝ) (s : LockState) : LockState :=
  let s' :=
    match snr with
    | none => s
    | some v =>
      if v < squelch_close then
        let c := s.lock_count - N
        if c ≤ -limit then { s with lock_count := -limit, pll_lock := false }
        else { s with lock_count := c }
      else if v > squelch_open then
        let c := s.lock_count + N
        if c ≥ limit then { s with lock_count := limit, pll_lock := true }
        else { s with lock_count := c }
      else s
  { s' with lock_timer := s'.lock_count }

/-- Phase-wrap tracking of `demod_linear`: given the rotation counter, the
previous block's recorded phase `chan->linear.cphase` and the oscillator
phase at the end of this block, return the updated
`(rotations, cphase)`. -/
def rotation_update (rotations : ℤ) (cphase phase : ℝ) : ℤ × ℝ :=
  let phase_diff := phase - cphase
  (if phase_diff > Real.pi then rotations - 1
   else if phase_diff < -Real.pi then rotations + 1
   else rotations,
   phase)

/-- Cold-start prologue of the PLL branch (linear.c:
`if(!chan->pll.was_on){ rotations = 0; integrator = 0; was_on = true; }`):
returns `(rotations, integrator, was_on)` after the check. -/
def pll_prologue (was_on : Bool) (rotations : ℤ) (integrator : ℝ) : ℤ × ℝ × Bool :=
  if !was_on then (0, 0, true) else (rotations, integrator, true)

/-- Mute decision of `demod_linear`:
`bool mute = (output_power == 0) || (chan->linear.pll && !chan->linear.pll_lock)
|| (chan->tune.freq == 0);`. -/
def mute_flag (output_power : ℝ) (pll pll_lock : Bool) (freq : ℝ) : Bool :=
  decide (output_power = 0) || (pll && !pll_lock) || decide (freq = 0)

end

/-! ### Facts about the formatting loops and the gain ramp -/

theorem mono_i_loop_gain (gc : ℝ) (l : List ℂ) (g p : ℝ) :
    (mono_i_loop gc l g p).2.2 = g * gc ^ l.length := by
  induction l generalizing g p with
  | nil => simp [mono_i_loop]
  | cons z rest ih =>
    simp only [mono_i_loop, List.length_cons]
    rw [ih]
    ring

theorem mono_env_loop_gain (gc : ℝ) (l : List ℂ) (g p : ℝ) :
    (mono_env_loop gc l g p).2.2 = g * gc ^ l.length := by
  induction l generalizing g p with
  | nil => simp [mono_env_loop]
  | cons z rest ih =>
    simp only [mono_env_loop, List.length_cons]
    rw [ih]
    ring

theorem stereo_iq_loop_gain (gc : ℝ) (l : List ℂ) (g p : ℝ) :
    (stereo_iq_loop gc l g p).2.2 = g * gc ^ l.length := by
  induction l generalizing g p with
  | nil => simp [stereo_iq_loop]
  | cons z rest ih =>
    simp only [stereo_iq_loop, List.length_cons]
    rw [ih]
    ring

theorem stereo_env_loop_gain (gc : ℝ) (l : List ℂ) (g p : ℝ) :
    (stereo_env_loop gc l g p).2.2 = g * gc ^ l.length := by
  induction l generalizing g p with
  | nil => simp [stereo_env_loop]
  | cons z rest ih =>
    simp only [stereo_env_loop, List.length_cons]
    rw [ih]
    ring

theorem rpow_ramp_cancel (target g : ℝ) (N : ℕ) (hN : 1 ≤ N) (hg : 0 < g)
    (ht : 0 < target) :
    g * ((target / g) ^ ((1 : ℝ) / (N : ℝ))) ^ N = target := by
  have hbase : (0 : ℝ) ≤ target / g := le_of_lt (div_pos ht hg)
  have hNne : (N : ℝ) ≠ 0 := Nat.cast_ne_zero.mpr (by omega)
  rw [← Real.rpow_natCast ((target / g) ^ ((1 : ℝ) / (N : ℝ))) N,
    ← Real.rpow_mul hbase, one_div, inv_mul_cancel₀ hNne, Real.rpow_one,
    mul_comm, div_mul_cancel₀ _ (ne_of_gt hg)]

/-! ### Claim theorems for linear.c -/

/-- Claim C1: in a gain-reducing AGC branch with strictly positive target
gain, the per-sample factor `gain_change = (target/gain0)^(1/N)` computed
once per block and applied as `gain *= gain_change` once after each of the
`N` output samples — in whichever of the four output-formatting modes is
active — leaves the end-of-block gain equal to
`gain0 * gain_change^N`, which equals the intended target gain exactly in
real arithmetic. -/
theorem agc_ramp_reaches_target (cfg : AgcConfig) (N : ℕ) (hN : 1 ≤ N)
    (min_IF max_IF n0 bb_power gain target : ℝ) (hangcount : ℕ)
    (hagc : cfg.agc = true) (hg : 0 < gain) (ht : 0 < target)
    (hbranch :
      (Real.sqrt bb_power * gain > cfg.headroom ∧
        target = cfg.headroom / Real.sqrt bb_power) ∨
      (¬ Real.sqrt bb_power * gain > cfg.headroom ∧
        Real.sqrt (|min_IF - max_IF| * n0) * gain > cfg.threshold * cfg.headroom ∧
        target = cfg.threshold * cfg.headroom / Real.sqrt (|min_IF - max_IF| * n0)))
    (gc : ℝ) (hgc : gc = (agc_step cfg N min_IF max_IF n0 bb_power gain hangcount).1)
    (l : List ℂ) (hlen : l.length = N) :
    gc = (target / gain) ^ ((1 : ℝ) / (N : ℝ)) ∧
    gain * gc ^ N = target ∧
    (mono_i_loop gc l gain 0).2.2 = target ∧
    (mono_env_loop gc l gain 0).2.2 = target ∧
    (stereo_iq_loop gc l gain 0).2.2 = target ∧
    (stereo_env_loop gc l gain 0).2.2 = target := by
  have hgc' : gc = (target / gain) ^ ((1 : ℝ) / (N : ℝ)) := by
    rcases hbranch with ⟨hs, htv⟩ | ⟨hns, hn, htv⟩
    · rw [hgc]
      simp only [agc_step, hagc, if_true]
      rw [if_pos hs]
      have hpos : cfg.headroom / Real.sqrt bb_power > 0 := htv ▸ ht
      rw [if_pos hpos, ← htv]
    · rw [hgc]
      simp only [agc_step, hagc, if_true]
      rw [if_neg hns, if_pos hn]
      have hpos : cfg.threshold * cfg.headroom / Real.sqrt (|min_IF - max_IF| * n0) > 0 :=
        htv ▸ ht
      rw [if_pos hpos, ← htv]
  have hpow : gain * gc ^ N = target := by
    rw [hgc']
    exact rpow_ramp_cancel target gain N hN hg ht
  refine ⟨hgc', hpow, ?_, ?_, ?_, ?_⟩
  · rw [mono_i_loop_gain, hlen]; exact hpow
  · rw [mono_env_loop_gain, hlen]; exact hpow
  · rw [stereo_iq_loop_gain, hlen]; exact hpow
  · rw [stereo_env_loop_gain, hlen]; exact hpow

theorem agc_ramp_reaches_target_witness :
    (agc_step ⟨true, 1, 1, 5, 2⟩ 1 0 0 0 1 2 0).1
      = ((1 : ℝ) / 2) ^ ((1 : ℝ) / ((1 : ℕ) : ℝ)) ∧
    2 * ((agc_step ⟨true, 1, 1, 5, 2⟩ 1 0 0 0 1 2 0).1) ^ (1 : ℕ) = 1 ∧
    (mono_i_loop (agc_step ⟨true, 1, 1, 5, 2⟩ 1 0 0 0 1 2 0).1 [0] 2 0).2.2 = 1 ∧
    (mono_env_loop (agc_step ⟨true, 1, 1, 5, 2⟩ 1 0 0 0 1 2 0).1 [0] 2 0).2.2 = 1 ∧
    (stereo_iq_loop (agc_step ⟨true, 1, 1, 5, 2⟩ 1 0 0 0 1 2 0).1 [0] 2 0).2.2 = 1 ∧
    (stereo_env_loop (agc_step ⟨true, 1, 1, 5, 2⟩ 1 0 0 0 1 2 0).1 [0] 2 0).2.2 = 1 :=
  agc_ramp_reaches_target ⟨true, 1, 1, 5, 2⟩ 1 (by norm_num) 0 0 0 1 2 1 0 rfl
    (by norm_num) (by norm_num)
    (Or.inl ⟨by norm_num [Real.sqrt_one], by norm_num [Real.sqrt_one]⟩)
    _ rfl [0] rfl

/-- Claim C2: with AGC enabled exactly one of four mutually exclusive
branches fires per block, tested in the fixed source order strong signal →
noise above threshold → hang → recovery; the hang counter is restarted to
the configured hang time only in the strong-signal branch, the noise
branch leaves it untouched, the hang branch sets `gain_change = 1` and
decrements the counter by one, and the recovery branch sets
`gain_change = recovery_rate^(1/N)`. -/
theorem agc_branch_order (cfg : AgcConfig) (N : ℕ)
    (min_IF max_IF n0 bb_power gain : ℝ) (hangcount : ℕ) (hagc : cfg.agc = true) :
    (agc_branch cfg min_IF max_IF n0 bb_power gain hangcount = AgcBranch.strong ↔
      Real.sqrt bb_power * gain > cfg.headroom) ∧
    (agc_branch cfg min_IF max_IF n0 bb_power gain hangcount = AgcBranch.noiseHigh ↔
      ¬ Real.sqrt bb_power * gain > cfg.headroom ∧
      Real.sqrt (|min_IF - max_IF| * n0) * gain > cfg.threshold * cfg.headroom) ∧
    (agc_branch cfg min_IF max_IF n0 bb_power gain hangcount = AgcBranch.hanging ↔
      ¬ Real.sqrt bb_power * gain > cfg.headroom ∧
      ¬ Real.sqrt (|min_IF - max_IF| * n0) * gain > cfg.threshold * cfg.headroom ∧
      0 < hangcount) ∧
    (agc_branch cfg min_IF max_IF n0 bb_power gain hangcount = AgcBranch.recovering ↔
      ¬ Real.sqrt bb_power * gain > cfg.headroom ∧
      ¬ Real.sqrt (|min_IF - max_IF| * n0) * gain > cfg.threshold * cfg.headroom ∧
      hangcount = 0) ∧
    (Real.sqrt bb_power * gain > cfg.headroom →
      (agc_step cfg N min_IF max_IF n0 bb_power gain hangcount).2 = cfg.hangtime) ∧
    (¬ Real.sqrt bb_power * gain > cfg.headroom →
      Real.sqrt (|min_IF - max_IF| * n0) * gain > cfg.threshold * cfg.headroom →
      (agc_step cfg N min_IF max_IF n0 bb_power gain hangcount).2 = hangcount) ∧
    (¬ Real.sqrt bb_power * gain > cfg.headroom →
      ¬ Real.sqrt (|min_IF - max_IF| * n0) * gain > cfg.threshold * cfg.headroom →
      0 < hangcount →
      agc_step cfg N min_IF max_IF n0 bb_power gain hangcount = (1, hangcount - 1)) ∧
    (¬ Real.sqrt bb_power * gain > cfg.headroom →
      ¬ Real.sqrt (|min_IF - max_IF| * n0) * gain > cfg.threshold * cfg.headroom →
      hangcount = 0 →
      agc_step cfg N min_IF max_IF n0 bb_power gain hangcount =
        (cfg.recovery_rate ^ ((1 : ℝ) / (N : ℝ)), hangcount)) := by
  by_cases hs : Real.sqrt bb_power * gain > cfg.headroom <;>
    by_cases hn : Real.sqrt (|min_IF - max_IF| * n0) * gain > cfg.threshold * cfg.headroom <;>
    by_cases hh : 0 < hangcount <;>
    simp [agc_branch, agc_step, hagc, hs, hn, hh, -Real.sqrt_mul, -Real.sqrt_mul'] <;>
    omega

theorem agc_branch_order_witness :
    (agc_branch ⟨true, 1, 1, 5, 2⟩ 0 0 0 1 2 0 = AgcBranch.strong ↔
      Real.sqrt 1 * 2 > (1 : ℝ)) ∧
    (agc_branch ⟨true, 1, 1, 5, 2⟩ 0 0 0 1 2 0 = AgcBranch.noiseHigh ↔
      ¬ Real.sqrt 1 * 2 > (1 : ℝ) ∧
      Real.sqrt (|(0 : ℝ) - 0| * 0) * 2 > (1 : ℝ) * 1) ∧
    (agc_branch ⟨true, 1, 1, 5, 2⟩ 0 0 0 1 2 0 = AgcBranch.hanging ↔
      ¬ Real.sqrt 1 * 2 > (1 : ℝ) ∧
      ¬ Real.sqrt (|(0 : ℝ) - 0| * 0) * 2 > (1 : ℝ) * 1 ∧
      0 < 0) ∧
    (agc_branch ⟨true, 1, 1, 5, 2⟩ 0 0 0 1 2 0 = AgcBranch.recovering ↔
      ¬ Real.sqrt 1 * 2 > (1 : ℝ) ∧
      ¬ Real.sqrt (|(0 : ℝ) - 0| * 0) * 2 > (1 : ℝ) * 1 ∧
      0 = 0) ∧
    (Real.sqrt 1 * 2 > (1 : ℝ) →
      (agc_step ⟨true, 1, 1, 5, 2⟩ 3 0 0 0 1 2 0).2 = 5) ∧
    (¬ Real.sqrt 1 * 2 > (1 : ℝ) →
      Real.sqrt (|(0 : ℝ) - 0| * 0) * 2 > (1 : ℝ) * 1 →
      (agc_step ⟨true, 1, 1, 5, 2⟩ 3 0 0 0 1 2 0).2 = 0) ∧
    (¬ Real.sqrt 1 * 2 > (1 : ℝ) →
      ¬ Real.sqrt (|(0 : ℝ) - 0| * 0) * 2 > (1 : ℝ) * 1 →
      0 < 0 →
      agc_step ⟨true, 1, 1, 5, 2⟩ 3 0 0 0 1 2 0 = (1, 0 - 1)) ∧
    (¬ Real.sqrt 1 * 2 > (1 : ℝ) →
      ¬ Real.sqrt (|(0 : ℝ) - 0| * 0) * 2 > (1 : ℝ) * 1 →
      0 = 0 →
      agc_step ⟨true, 1, 1, 5, 2⟩ 3 0 0 0 1 2 0 =
        ((2 : ℝ) ^ ((1 : ℝ) / ((3 : ℕ) : ℝ)), 0)) :=
  agc_branch_order ⟨true, 1, 1, 5, 2⟩ 3 0 0 0 1 2 0 rfl

/-- Claim C7: in every AGC branch a non-positive computed target gain
skips the ramp and leaves `gain_change = 1`; `gain_change` is never zero
(indeed strictly positive) in any branch; consequently, starting from a
strictly positive gain, the output gain after the per-sample ramp of any
of the four output-formatting modes remains strictly positive. -/
theorem agc_gain_stays_positive (cfg : AgcConfig) (N : ℕ)
    (min_IF max_IF n0 bb_power gain : ℝ) (hangcount : ℕ)
    (hg : 0 < gain) (hrr : 0 < cfg.recovery_rate) :
    (Real.sqrt bb_power * gain > cfg.headroom →
      ¬ cfg.headroom / Real.sqrt bb_power > 0 →
      (agc_step cfg N min_IF max_IF n0 bb_power gain hangcount).1 = 1) ∧
    (¬ Real.sqrt bb_power * gain > cfg.headroom →
      Real.sqrt (|min_IF - max_IF| * n0) * gain > cfg.threshold * cfg.headroom →
      ¬ cfg.threshold * cfg.headroom / Real.sqrt (|min_IF - max_IF| * n0) > 0 →
      (agc_step cfg N min_IF max_IF n0 bb_power gain hangcount).1 = 1) ∧
    0 < (agc_step cfg N min_IF max_IF n0 bb_power gain hangcount).1 ∧
    (∀ l : List ℂ,
      0 < (mono_i_loop (agc_step cfg N min_IF max_IF n0 bb_power gain hangcount).1
            l gain 0).2.2 ∧
      0 < (mono_env_loop (agc_step cfg N min_IF max_IF n0 bb_power gain hangcount).1
            l gain 0).2.2 ∧
      0 < (stereo_iq_loop (agc_step cfg N min_IF max_IF n0 bb_power gain hangcount).1
            l gain 0).2.2 ∧
      0 < (stereo_env_loop (agc_step cfg N min_IF max_IF n0 bb_power gain hangcount).1
            l gain 0).2.2) := by
  have hgcpos : 0 < (agc_step cfg N min_IF max_IF n0 bb_power gain hangcount).1 := by
    rcases Bool.eq_false_or_eq_true cfg.agc with hagc | hagc
    · by_cases hs : Real.sqrt bb_power * gain > cfg.headroom
      · by_cases hp : cfg.headroom / Real.sqrt bb_power > 0
        · simp only [agc_step, hagc, if_true]
          rw [if_pos hs, if_pos hp]
          exact Real.rpow_pos_of_pos (div_pos hp hg) _
        · simp only [agc_step, hagc, if_true]
          rw [if_pos hs, if_neg hp]
          norm_num
      · by_cases hn :
          Real.sqrt (|min_IF - max_IF| * n0) * gain > cfg.threshold * cfg.headroom
        · by_cases hp :
            cfg.threshold * cfg.headroom / Real.sqrt (|min_IF - max_IF| * n0) > 0
          · simp only [agc_step, hagc, if_true]
            rw [if_neg hs, if_pos hn, if_pos hp]
            exact Real.rpow_pos_of_pos (div_pos hp hg) _
          · simp only [agc_step, hagc, if_true]
            rw [if_neg hs, if_pos hn, if_neg hp]
            norm_num
        · by_cases hh : 0 < hangcount
          · simp only [agc_step, hagc, if_true]
            rw [if_neg hs, if_neg hn, if_pos hh]
            norm_num
          · simp only [agc_step, hagc, if_true]
            rw [if_neg hs, if_neg hn, if_neg hh]
            exact Real.rpow_pos_of_pos hrr _
    · simp [agc_step, hagc]
  refine ⟨?_, ?_, hgcpos, ?_⟩
  · intro hs hp
    rcases Bool.eq_false_or_eq_true cfg.agc with hagc | hagc
    · simp only [agc_step, hagc, if_true]
      rw [if_pos hs, if_neg hp]
    · simp [agc_step, hagc]
  · intro hs hn hp
    rcases Bool.eq_false_or_eq_true cfg.agc with hagc | hagc
    · simp only [agc_step, hagc, if_true]
      rw [if_neg hs, if_pos hn, if_neg hp]
    · simp [agc_step, hagc]
  · intro l
    have hpow : (0 : ℝ) <
        gain * (agc_step cfg N min_IF max_IF n0 bb_power gain hangcount).1 ^ l.length :=
      mul_pos hg (pow_pos hgcpos _)
    exact ⟨by rw [mono_i_loop_gain]; exact hpow, by rw [mono_env_loop_gain]; exact hpow,
      by rw [stereo_iq_loop_gain]; exact hpow, by rw [stereo_env_loop_gain]; exact hpow⟩

theorem agc_gain_stays_positive_witness :
    0 < (agc_step ⟨true, 1, 1, 5, 2⟩ 1 0 0 0 1 2 0).1 ∧
    0 < (mono_i_loop (agc_step ⟨true, 1, 1, 5, 2⟩ 1 0 0 0 1 2 0).1 [0] 2 0).2.2 :=
  ⟨(agc_gain_stays_positive ⟨true, 1, 1, 5, 2⟩ 1 0 0 0 1 2 0
      (by norm_num) (by norm_num)).2.2.1,
   ((agc_gain_stays_positive ⟨true, 1, 1, 5, 2⟩ 1 0 0 0 1 2 0
      (by norm_num) (by norm_num)).2.2.2 [0]).1⟩

theorem agc_step_disabled (cfg : AgcConfig) (N : ℕ) (min_IF max_IF n0 bb_power gain : ℝ)
    (hangcount : ℕ) (hagc : cfg.agc = false) :
    agc_step cfg N min_IF max_IF n0 bb_power gain hangcount = (1, hangcount) := by
  simp [agc_step, hagc]

theorem mono_i_loop_output_const (l : List ℂ) (g p : ℝ) :
    (mono_i_loop 1 l g p).1 = l.map fun z => z.re * g := by
  induction l generalizing g p with
  | nil => simp [mono_i_loop]
  | cons z rest ih => simp [mono_i_loop, ih]

theorem block_final_gain_one (channels : ℕ) (env : Bool) (buffer : List ℂ) (gain : ℝ) :
    block_final_gain channels env 1 buffer gain = gain := by
  rw [block_final_gain]
  split_ifs <;>
    simp [mono_i_loop_gain, mono_env_loop_gain, stereo_iq_loop_gain, stereo_env_loop_gain]

/-- Claim C8: when the AGC configuration flag is off, `gain_change` is 1
for every block, so the output gain after any block equals its value
before it and stays exactly constant across arbitrarily many blocks,
regardless of signal level, while the per-block demodulation itself
proceeds unchanged (the mono I output is plain `re * gain` at the constant
gain). -/
theorem agc_disabled_constant_gain (cfg : AgcConfig) (channels : ℕ) (env : Bool)
    (N : ℕ) (min_IF max_IF n0 bb_power gain : ℝ) (hangcount : ℕ)
    (hagc : cfg.agc = false) :
    agc_step cfg N min_IF max_IF n0 bb_power gain hangcount = (1, hangcount) ∧
    (∀ buffer : List ℂ, block_final_gain channels env 1 buffer gain = gain) ∧
    (∀ buffer : List ℂ,
      (mono_i_loop 1 buffer gain 0).1 = buffer.map fun z => z.re * gain) ∧
    (∀ (blocks : List BlockIn) (s : ℝ × ℕ),
      agc_gain_evolution cfg channels env blocks s = s) := by
  have hstep : ∀ (M : ℕ) (a b c d e : ℝ) (h : ℕ),
      agc_step cfg M a b c d e h = (1, h) :=
    fun M a b c d e h => agc_step_disabled cfg M a b c d e h hagc
  refine ⟨hstep N min_IF max_IF n0 bb_power gain hangcount,
    fun buffer => block_final_gain_one channels env buffer gain,
    fun buffer => mono_i_loop_output_const buffer gain 0, ?_⟩
  intro blocks
  induction blocks with
  | nil => intro s; rfl
  | cons b rest ih =>
    intro s
    simp only [agc_gain_evolution, hstep, block_final_gain_one]
    exact ih s

theorem agc_disabled_constant_gain_witness :
    agc_step ⟨false, 1, 1, 0, 1⟩ 1 0 0 0 9 2 3 = (1, 3) ∧
    agc_gain_evolution ⟨false, 1, 1, 0, 1⟩ 1 false
      [⟨[1], 0, 0, 0, 9⟩, ⟨[1, 1], 0, 0, 0, 25⟩] (2, 3) = (2, 3) :=
  ⟨(agc_disabled_constant_gain ⟨false, 1, 1, 0, 1⟩ 1 false 1 0 0 0 9 2 3 rfl).1,
   (agc_disabled_constant_gain ⟨false, 1, 1, 0, 1⟩ 1 false 1 0 0 0 9 2 3 rfl).2.2.2
     [⟨[1], 0, 0, 0, 9⟩, ⟨[1, 1], 0, 0, 0, 25⟩] (2, 3)⟩

/-- Claim C3: per PLL block the lock counter moves by the block size `N`
toward the side indicated by the SNR and is clamped at the limit
`lock_time * samprate`; between the thresholds, or when the SNR is NaN,
it is unchanged; the exposed lock boolean becomes false only when the
counter reaches the lower clamp, becomes true only when it reaches the
upper clamp, and never changes otherwise; the raw counter is copied to
the lock-timer telemetry field each block. -/
theorem lock_detector_hysteresis (lock_time : ℝ) (samprate : ℕ) (limit N : ℤ)
    (squelch_close squelch_open : ℝ) (snr : Option ℝ) (s : LockState)
    (hlim : limit = lock_limit lock_time samprate) :
    (∀ v, snr = some v → v < squelch_close →
      (lock_update limit N squelch_close squelch_open snr s).lock_count
          = max (-limit) (s.lock_count - N) ∧
      (s.lock_count - N ≤ -limit →
        (lock_update limit N squelch_close squelch_open snr s).pll_lock = false) ∧
      (¬ s.lock_count - N ≤ -limit →
        (lock_update limit N squelch_close squelch_open snr s).pll_lock = s.pll_lock)) ∧
    (∀ v, snr = some v → ¬ v < squelch_close → v > squelch_open →
      (lock_update limit N squelch_close squelch_open snr s).lock_count
          = min limit (s.lock_count + N) ∧
      (s.lock_count + N ≥ limit →
        (lock_update limit N squelch_close squelch_open snr s).pll_lock = true) ∧
      (¬ s.lock_count + N ≥ limit →
        (lock_update limit N squelch_close squelch_open snr s).pll_lock = s.pll_lock)) ∧
    (∀ v, snr = some v → ¬ v < squelch_close → ¬ v > squelch_open →
      (lock_update limit N squelch_close squelch_open snr s).lock_count = s.lock_count ∧
      (lock_update limit N squelch_close squelch_open snr s).pll_lock = s.pll_lock) ∧
    (snr = none →
      (lock_update limit N squelch_close squelch_open snr s).lock_count = s.lock_count ∧
      (lock_update limit N squelch_close squelch_open snr s).pll_lock = s.pll_lock) ∧
    ((lock_update limit N squelch_close squelch_open snr s).pll_lock ≠ s.pll_lock →
      ((lock_update limit N squelch_close squelch_open snr s).pll_lock = false ∧
        (lock_update limit N squelch_close squelch_open snr s).lock_count = -limit) ∨
      ((lock_update limit N squelch_close squelch_open snr s).pll_lock = true ∧
        (lock_update limit N squelch_close squelch_open snr s).lock_count = limit)) ∧
    (lock_update limit N squelch_close squelch_open snr s).lock_timer
        = (lock_update limit N squelch_close squelch_open snr s).lock_count := by
  rcases snr with _ | v
  · refine ⟨?_, ?_, ?_, fun _ => ⟨rfl, rfl⟩, ?_, rfl⟩
    · exact fun v h => absurd h (by simp)
    · exact fun v h => absurd h (by simp)
    · exact fun v h => absurd h (by simp)
    · intro h
      exact absurd rfl h
  · have hinj : ∀ w : ℝ, some v = some w → w = v := fun w h => (Option.some.inj h).symm
    by_cases h1 : v < squelch_close
    · by_cases h2 : s.lock_count - N ≤ -limit
      · have key : lock_update limit N squelch_close squelch_open (some v) s =
            { s with lock_count := -limit, pll_lock := false, lock_timer := -limit } := by
          simp only [lock_update]
          rw [if_pos h1, if_pos h2]
        refine ⟨?_, ?_, ?_, by simp, ?_, by rw [key]⟩
        · intro w hw h'
          obtain rfl := hinj w hw
          refine ⟨by rw [key]; simp; omega, fun _ => by rw [key], fun hc => absurd h2 hc⟩
        · intro w hw h'
          obtain rfl := hinj w hw
          exact absurd h1 h'
        · intro w hw h'
          obtain rfl := hinj w hw
          exact absurd h1 h'
        · intro _
          left
          rw [key]
          exact ⟨rfl, rfl⟩
      · have key : lock_update limit N squelch_close squelch_open (some v) s =
            { s with lock_count := s.lock_count - N,
                     lock_timer := s.lock_count - N } := by
          simp only [lock_update]
          rw [if_pos h1, if_neg h2]
        refine ⟨?_, ?_, ?_, by simp, ?_, by rw [key]⟩
        · intro w hw h'
          obtain rfl := hinj w hw
          refine ⟨by rw [key]; simp; omega, fun hc => absurd hc h2, fun _ => by rw [key]⟩
        · intro w hw h'
          obtain rfl := hinj w hw
          exact absurd h1 h'
        · intro w hw h'
          obtain rfl := hinj w hw
          exact absurd h1 h'
        · intro h
          exact absurd (by rw [key]) h
    · by_cases h3 : v > squelch_open
      · by_cases h4 : s.lock_count + N ≥ limit
        · have key : lock_update limit N squelch_close squelch_open (some v) s =
              { s with lock_count := limit, pll_lock := true, lock_timer := limit } := by
            simp only [lock_update]
            rw [if_neg h1, if_pos h3, if_pos h4]
          refine ⟨?_, ?_, ?_, by simp, ?_, by rw [key]⟩
          · intro w hw h'
            obtain rfl := hinj w hw
            exact absurd h' h1
          · intro w hw h' h''
            obtain rfl := hinj w hw
            refine ⟨by rw [key]; simp; omega, fun _ => by rw [key], fun hc => absurd h4 hc⟩
          · intro w hw h' h''
            obtain rfl := hinj w hw
            exact absurd h3 h''
          · intro _
            right
            rw [key]
            exact ⟨rfl, rfl⟩
        · have key : lock_update limit N squelch_close squelch_open (some v) s =
              { s with lock_count := s.lock_count + N,
                       lock_timer := s.lock_count + N } := by
            simp only [lock_update]
            rw [if_neg h1, if_pos h3, if_neg h4]
          refine ⟨?_, ?_, ?_, by simp, ?_, by rw [key]⟩
          · intro w hw h'
            obtain rfl := hinj w hw
            exact absurd h' h1
          · intro w hw h' h''
            obtain rfl := hinj w hw
            refine ⟨by rw [key]; simp; omega, fun hc => absurd hc h4, fun _ => by rw [key]⟩
          · intro w hw h' h''
            obtain rfl := hinj w hw
            exact absurd h3 h''
          · intro h
            exact absurd (by rw [key]) h
      · have key : lock_update limit N squelch_close squelch_open (some v) s =
            { s with lock_timer := s.lock_count } := by
          simp only [lock_update]
          rw [if_neg h1, if_neg h3]
        refine ⟨?_, ?_, ?_, by simp, ?_, by rw [key]⟩
        · intro w hw h'
          obtain rfl := hinj w hw
          exact absurd h' h1
        · intro w hw h' h''
          obtain rfl := hinj w hw
          exact absurd h'' h3
        · intro w hw h' h''
          obtain rfl := hinj w hw
          exact ⟨by rw [key], by rw [key]⟩
        · intro h
          exact absurd (by rw [key]) h

theorem lock_detector_hysteresis_witness :
    (lock_update 5 2 1 2 (some 0) ⟨0, true, 0⟩).lock_count = max (-(5 : ℤ)) (0 - 2) ∧
    (lock_update 5 2 1 2 (some 0) ⟨0, true, 0⟩).lock_timer
        = (lock_update 5 2 1 2 (some 0) ⟨0, true, 0⟩).lock_count :=
  ⟨((lock_detector_hysteresis 1 5 5 2 1 2 (some 0) ⟨0, true, 0⟩
      (by norm_num [lock_limit])).1 0 rfl (by norm_num)).1,
   (lock_detector_hysteresis 1 5 5 2 1 2 (some 0) ⟨0, true, 0⟩
      (by norm_num [lock_limit])).2.2.2.2.2⟩

/-- Claim C4: the mute flag handed to the output transport is true exactly
when the block's per-sample output power is zero, or the PLL is enabled
and currently unlocked, or the tuned frequency is zero. -/
theorem mute_condition (output_power : ℝ) (pll pll_lock : Bool) (freq : ℝ) :
    mute_flag output_power pll pll_lock freq = true ↔
      output_power = 0 ∨ (pll = true ∧ pll_lock = false) ∨ freq = 0 := by
  simp [mute_flag, or_assoc]

/-- Claim C5: after a PLL block the reported SNR equals
(in-phase power / quadrature power) − 1 clamped below at 0 whenever the
accumulated quadrature power is nonzero, and is NaN (here `none`) when the
quadrature power is exactly zero; the NaN case is produced by a total
function, i.e. absorbed locally. -/
theorem snr_telemetry (l : List ℂ) :
    (noise_power l ≠ 0 →
      snr_of (signal_power l) (noise_power l)
        = some (max 0 (signal_power l / noise_power l - 1))) ∧
    (noise_power l = 0 → snr_of (signal_power l) (noise_power l) = none) := by
  constructor
  · intro h
    have hmax : (if signal_power l / noise_power l - 1 < 0 then (0 : ℝ)
        else signal_power l / noise_power l - 1)
        = max 0 (signal_power l / noise_power l - 1) := by
      rcases le_or_lt 0 (signal_power l / noise_power l - 1) with h' | h'
      · rw [if_neg (not_lt.mpr h'), max_eq_right h']
      · rw [if_pos h', max_eq_left (le_of_lt h')]
    simp only [snr_of]
    rw [if_pos h, hmax]
  · intro h
    simp only [snr_of]
    rw [if_neg (fun hc => hc h)]

theorem snr_telemetry_witness :
    snr_of (signal_power [Complex.I]) (noise_power [Complex.I])
      = some (max 0 (signal_power [Complex.I] / noise_power [Complex.I] - 1)) :=
  (snr_telemetry [Complex.I]).1 (by norm_num [noise_power, Complex.I_im])

/-- Claim C6: per PLL block the rotation counter changes by exactly −1
when the end-of-block oscillator phase minus the phase recorded at the
previous block exceeds +π, by exactly +1 when that difference is below
−π, and by 0 otherwise; it never moves by more than one per block; the
recorded phase is updated to the current phase; and the counter is reset
to 0 on a disabled-to-enabled PLL transition. -/
theorem rotation_counter (rotations : ℤ) (cphase phase : ℝ) (integrator : ℝ) :
    (phase - cphase > Real.pi →
      (rotation_update rotations cphase phase).1 = rotations - 1) ∧
    (phase - cphase < -Real.pi →
      (rotation_update rotations cphase phase).1 = rotations + 1) ∧
    (¬ phase - cphase > Real.pi → ¬ phase - cphase < -Real.pi →
      (rotation_update rotations cphase phase).1 = rotations) ∧
    |(rotation_update rotations cphase phase).1 - rotations| ≤ 1 ∧
    (rotation_update rotations cphase phase).2 = phase ∧
    (pll_prologue false rotations integrator).1 = 0 := by
  have hpi : ¬ (Real.pi < -Real.pi) := by
    have := Real.pi_pos
    intro h
    linarith
  refine ⟨?_, ?_, ?_, ?_, rfl, rfl⟩
  · intro h
    simp only [rotation_update]
    rw [if_pos h]
  · intro h
    have h' : ¬ phase - cphase > Real.pi := by
      have := Real.pi_pos
      intro hgt
      linarith
    simp only [rotation_update]
    rw [if_neg h', if_pos h]
  · intro h h'
    simp only [rotation_update]
    rw [if_neg h, if_neg h']
  · simp only [rotation_update]
    by_cases h : phase - cphase > Real.pi
    · rw [if_pos h]
      simp
    · rw [if_neg h]
      by_cases h' : phase - cphase < -Real.pi
      · rw [if_pos h']
        simp
      · rw [if_neg h']
        simp

theorem rotation_counter_witness :
    ((4 : ℝ) - 0 > Real.pi →
      (rotation_update 7 0 4).1 = 7 - 1) ∧
    ((4 : ℝ) - 0 < -Real.pi →
      (rotation_update 7 0 4).1 = 7 + 1) ∧
    (¬ (4 : ℝ) - 0 > Real.pi → ¬ (4 : ℝ) - 0 < -Real.pi →
      (rotation_update 7 0 4).1 = 7) ∧
    |(rotation_update 7 0 4).1 - 7| ≤ 1 ∧
    (rotation_update 7 0 4).2 = 4 ∧
    (pll_prologue false 7 0).1 = 0 :=
  rotation_counter 7 0 4 0

end KA9Q
